import Mathlib

/-!
Verification of the ClickHouse admin-panel pipeline
(`clickhouse_admin_panel.py`, `settings.py`).

The program is a linear pipeline: load settings, open a client connection,
run two introspection commands that return generated per-table SQL as text,
post-process that text into statement lists, execute the statements, shape
the rows into two report tables, and render them behind a table-name filter.

Strings are embedded as `List Char`.  Python's `str.replace("\\'", "'")`,
`str.replace("\n", "")` and `str.split(";")` are given as structurally
recursive functions with exactly Python's left-to-right, non-overlapping
semantics, specialised to the patterns the source uses.
-/

set_option autoImplicit false

/-- The characters of a string literal. -/
def chars (s : String) : List Char := s.data

/-- A string is free of the three characters the post-processing treats
specially: the statement terminator, newline, and backslash. -/
def cleanChars (s : List Char) : Prop := ';' ∉ s ∧ '\n' ∉ s ∧ '\\' ∉ s

instance cleanChars.dec (s : List Char) : Decidable (cleanChars s) := by
  unfold cleanChars; infer_instance

/-- Negation of `name NOT ILIKE '%MV'`: does `name` end in "MV" case-insensitively?
Mirrors the WHERE clause of both introspection queries. -/
def endsWithMV (name : List Char) : Bool :=
  match name.reverse with
  | v :: m :: _ => m.toLower = 'm' && v.toLower = 'v'
  | _ => false

/-- Models `SELECT DISTINCT name FROM system.tables WHERE database = 'default' AND
name NOT ILIKE '%MV'`: the catalog parameter models the `name` column of
`system.tables` restricted to database `default`, in catalog enumeration
order; the filter and dedup model the WHERE clause and DISTINCT. -/
def userTables (catalog : List (List Char)) : List (List Char) :=
  (catalog.filter fun n => !endsWithMV n).dedup

/-- Literal prefix of each generated logical statement: `'SELECT '''`. -/
def lgA : List Char := chars "SELECT '"

/-- Literal middle of each generated logical statement, between the two
occurrences of the table name (source line 47). -/
def lgB : List Char :=
  chars "' AS Table, SUM(`Event Count`) AS `Event Count`, COUNT(*) AS `Row Count`, (`Row Count` / `Event Count`) AS `Ratio`, ((1 - (`Row Count` / `Event Count`)) * 100) AS `Logical Compression`FROM default."

/-- The generated logical statement for table `t`, without the terminal
`';'` (source line 47: the engine-side `||` concatenation). -/
def logicalBody (t : List Char) : List Char := lgA ++ t ++ lgB ++ t

/-- Literal prefix of each generated physical statement: `'SELECT '''`. -/
def phA : List Char := chars "SELECT '"

/-- Literal suffix of each generated physical statement, after the single
occurrence of the table name (source line 64); the FROM clause is the
constant `system.parts` with no per-table restriction. -/
def phB : List Char :=
  chars "' AS Table, formatReadableSize(SUM(data_compressed_bytes)) AS `Compressed Size`, formatReadableSize(SUM(data_uncompressed_bytes)) AS `Uncompressed Size`, (SUM(data_compressed_bytes) / SUM(data_uncompressed_bytes)) AS `Ratio`, ((1 - (SUM(data_compressed_bytes) / SUM(data_uncompressed_bytes))) * 100) AS `Physical Compression`FROM system.parts"

/-- The generated physical statement for table `t`, without the terminal
`';'`. -/
def physicalBody (t : List Char) : List Char := phA ++ t ++ phB

/-- ClickHouse TSV output escaping of the characters that can occur in the
generated statements: `'` becomes `\'`, `\` becomes `\\`, a newline becomes
`\n`.  This models the wire format whose quote escapes the source undoes
with `.replace("\\'", "'")`. -/
def tsvEscape : List Char → List Char
  | [] => []
  | c :: s =>
    (if c = '\'' then ['\\', '\'']
     else if c = '\\' then ['\\', '\\']
     else if c = '\n' then ['\\', 'n']
     else [c]) ++ tsvEscape s

/-- Rows of a multi-row `client.command` result, joined by newline
separators, as the driver returns them in one text blob. -/
def joinNl : List (List Char) → List Char
  | [] => []
  | [s] => s
  | s :: r :: t => s ++ '\n' :: joinNl (r :: t)

/-- The text blob returned by the first introspection command
(`client.command` on the logical meta-query), for a given catalog. -/
def logicalBlob (catalog : List (List Char)) : List Char :=
  joinNl ((userTables catalog).map fun t => tsvEscape (logicalBody t ++ [';']))

/-- The text blob returned by the second introspection command
(`client.command` on the physical meta-query), for a given catalog. -/
def physicalBlob (catalog : List (List Char)) : List Char :=
  joinNl ((userTables catalog).map fun t => tsvEscape (physicalBody t ++ [';']))

/-- Python `s.replace("\\'", "'")`: left-to-right, non-overlapping
replacement of backslash-quote by quote (source line 68). -/
def unescapeQuotes : List Char → List Char
  | [] => []
  | [a] => [a]
  | a :: b :: s =>
    if a = '\\' ∧ b = '\'' then '\'' :: unescapeQuotes s
    else a :: unescapeQuotes (b :: s)

/-- Python `s.replace("\n", "")` (source line 68). -/
def removeNewlines : List Char → List Char
  | [] => []
  | c :: s => if c = '\n' then removeNewlines s else c :: removeNewlines s

/-- Python `s.split(sep)` for a one-character separator: `"".split(";")`
is `[""]`, and every separator occurrence opens a new segment. -/
def splitOnChar (sep : Char) : List Char → List (List Char)
  | [] => [[]]
  | c :: s =>
    match splitOnChar sep s with
    | [] => [[]]
    | seg :: segs => if c = sep then [] :: seg :: segs else (c :: seg) :: segs

/-- Source line 68: `result.replace("\\'", "'").replace("\n", "").split(";")`.
The list comprehension `[row for row in ...]` is the identity. -/
def postprocess (blob : List Char) : List (List Char) :=
  splitOnChar ';' (removeNewlines (unescapeQuotes blob))

/-- The slice `queries[:-1]` that `extract` iterates over (source lines
78 and 83): all but the last element, empty when the list has at most one
element. -/
def executable (qs : List (List Char)) : List (List Char) :=
  qs.take (qs.length - 1)

/-- The two `st.error` banners the pipeline can show: the f-strings
`"Failed to connect to ClickHouse: {e}"` (source line 24) and
`"Failed to generate queries: {e}"` (source line 72), carrying the caught
exception. -/
inductive Msg (ε : Type) where
  | connectFailed (e : ε)
  | generateFailed (e : ε)
deriving DecidableEq

/-- The ClickHouse client as the pipeline observes it: the results of the
two fixed introspection `command` calls (logical first, physical second),
and the behaviour of `query` on each statement text.  `Except.error`
models a raised driver exception; `ρ` is the row type of a result set. -/
structure ClientM (ε ρ : Type) where
  commandLogical : Except ε (List Char)
  commandPhysical : Except ε (List Char)
  query : List Char → Except ε (List ρ)

/-- Function `create_clickhouse_client` (source lines 10-25): on a driver failure it
shows the connect banner and re-raises; its effect is the pair of the
propagated outcome and the banners it emitted.  The argument is the
outcome of `clickhouse_connect.get_client` with the loaded settings. -/
def create_clickhouse_client {ε ρ : Type} (conn : Except ε (ClientM ε ρ)) :
    Except ε (ClientM ε ρ) × List (Msg ε) :=
  match conn with
  | .ok c => (.ok c, [])
  | .error e => (.error e, [.connectFailed e])

/-- Method `make_queries` (source lines 32-73): run the logical introspection
command, then the physical one, post-process both blobs; on the first
failure show the generate banner and re-raise.  The `Nat` component counts
the `command` calls actually issued. -/
def make_queries {ε ρ : Type} (cl : ClientM ε ρ) :
    Except ε (List (List Char) × List (List Char)) × List (Msg ε) × Nat :=
  match cl.commandLogical with
  | .error e => (.error e, [.generateFailed e], 1)
  | .ok lb =>
    match cl.commandPhysical with
    | .error e => (.error e, [.generateFailed e], 2)
    | .ok pb => (.ok (postprocess lb, postprocess pb), [], 2)

/-- One `for query in ...: result = self.client.query(query).result_set;
acc.extend(result)` loop of `extract`: the accumulated rows (or the first
raised error, which aborts the loop) together with the statements actually
executed, in order. -/
def runQueries {ε ρ : Type} (cl : ClientM ε ρ) :
    List (List Char) → Except ε (List ρ) × List (List Char)
  | [] => (.ok [], [])
  | q :: qs =>
    match cl.query q with
    | .error e => (.error e, [q])
    | .ok rs =>
      match runQueries cl qs with
      | (.error e, tr) => (.error e, q :: tr)
      | (.ok rest, tr) => (.ok (rs ++ rest), q :: tr)

/-- Method `extract` (source lines 75-87): run the logical loop over
`logical_queries[:-1]`, then the physical loop over
`physical_queries[:-1]`; there is no try/except in this method, so an
error propagates without any banner.  The second component is the trace of
executed statements. -/
def extract {ε ρ : Type} (cl : ClientM ε ρ) (lq pq : List (List Char)) :
    Except ε (List ρ × List ρ) × List (List Char) :=
  match runQueries cl (executable lq) with
  | (.error e, ltr) => (.error e, ltr)
  | (.ok l, ltr) =>
    match runQueries cl (executable pq) with
    | (.error e, ptr) => (.error e, ltr ++ ptr)
    | (.ok p, ptr) => (.ok (l, p), ltr ++ ptr)

/-- Observable effects of one pipeline run: banners shown via `st.error`,
connection attempts, `command` calls issued, and the statements executed
via `client.query`, in order. -/
structure Trace (ε : Type) where
  banners : List (Msg ε)
  connects : Nat
  commands : Nat
  executed : List (List Char)
deriving DecidableEq

/-- Function `run` (source lines 117-120) up to the extraction stage:
`ClickHouseDataExtraction()` opens the connection (`__init__` calls
`create_clickhouse_client`), then `make_queries`, then `extract`.  Each
`match` arm that carries an error models the exception aborting the rest
of the run.  The shaping and presentation steps consume the extracted
rows and are modelled separately by `transform` and `filterTables`. -/
def run {ε ρ : Type} (conn : Except ε (ClientM ε ρ)) :
    Except ε (List ρ × List ρ) × Trace ε :=
  match create_clickhouse_client conn with
  | (.error e, bs) => (.error e, ⟨bs, 1, 0, []⟩)
  | (.ok cl, bs) =>
    match make_queries cl with
    | (.error e, bs2, ncmd) => (.error e, ⟨bs ++ bs2, 1, ncmd, []⟩)
    | (.ok (lq, pq), bs2, ncmd) =>
      match extract cl lq pq with
      | (res, tr) => (res, ⟨bs ++ bs2, 1, ncmd, tr⟩)

/-- A raw result row as `transform` consumes it: the DataFrame column
binding is positional, so the first cell is the `Table` column; the
remaining cells (the numeric/text metrics) are kept opaque. -/
structure Row where
  table : List Char
  cells : List (List Char)
deriving DecidableEq

/-- A shaped report table: the rows of a Polars DataFrame built with a
fixed positional schema whose first column is `Table` (source lines
92-113).  The column names and dtypes are fixed by `transform`'s schema
and carry no logic the claims depend on. -/
structure DataFrame where
  rows : List Row
deriving DecidableEq

/-- Function `transform` (source lines 90-114): builds the logical report table
from the logical accumulator and the physical report table from the
physical accumulator, row for row, positionally. -/
def transform (logical physical : List Row) : DataFrame × DataFrame :=
  (⟨logical⟩, ⟨physical⟩)

/-- The `Table` column of a report table. -/
def tableColumn (df : DataFrame) : List (List Char) :=
  df.rows.map Row.table

/-- Expression `df1["Table"].unique().to_list()` (source lines 129-130): the distinct
table names present in a dataset, the multiselect's option list and its
default selection. -/
def uniqueTables (df : DataFrame) : List (List Char) :=
  (df.rows.map Row.table).dedup

/-- Expression `df.filter(pl.col("Table").is_in(table_filter))` (source lines
134-135): keep the rows whose `Table` value is in the selection, by exact
string match. -/
def filterTables (df : DataFrame) (sel : List (List Char)) : DataFrame :=
  ⟨df.rows.filter fun r => decide (r.table ∈ sel)⟩

/-- A client backed by an honest catalog: the two introspection commands
succeed with the blobs the engine generates for `catalog`, and `query`
behaves as `qf`. -/
def dbClient {ε ρ : Type} (catalog : List (List Char))
    (qf : List Char → Except ε (List ρ)) : ClientM ε ρ :=
  ⟨.ok (logicalBlob catalog), .ok (physicalBlob catalog), qf⟩

/-- The table name embedded in a generated statement: the text between the
first pair of single quotes (`SELECT 'name' AS Table, ...`). -/
def parseTableName (q : List Char) : List Char :=
  (((q.dropWhile fun c => c ≠ '\'').drop 1).takeWhile fun c => c ≠ '\'')

/-- The raw environment the settings loader reads: each required field of
`Settings` as the optional text of the corresponding variable. -/
structure RawEnv where
  clickhouse_base_url : Option (List Char)
  clickhouse_batch_size : Option (List Char)
  clickhouse_compression_protocol : Option (List Char)
  clickhouse_password : Option (List Char)
  clickhouse_port : Option (List Char)
  clickhouse_user : Option (List Char)

/-- Class `Settings` (settings.py lines 4-11): six required fields; the two
`int` fields hold parsed integers. -/
structure Settings where
  clickhouse_base_url : List Char
  clickhouse_batch_size : Int
  clickhouse_compression_protocol : List Char
  clickhouse_password : List Char
  clickhouse_port : Int
  clickhouse_user : List Char

/-- An all-digit, nonempty numeral parsed to a `Nat`. -/
def digitsToNat (s : List Char) : Option Nat :=
  if s ≠ [] ∧ s.all Char.isDigit then
    some (s.foldl (fun n c => n * 10 + (c.toNat - '0'.toNat)) 0)
  else none

/-- The integer coercion a `pydantic` `int` field applies to an
environment string: an optional sign followed by digits; anything else is
a validation error. -/
def parseIntStr (s : List Char) : Option Int :=
  match s with
  | '-' :: rest => (digitsToNat rest).map fun n => -(n : Int)
  | '+' :: rest => (digitsToNat rest).map fun n => (n : Int)
  | _ => (digitsToNat s).map fun n => (n : Int)

/-- Call `Settings()` (settings.py line 14): `pydantic` `BaseSettings`
validation of the six required fields — a missing field or a failed `int`
coercion makes construction fail; a success yields the typed settings
value.  Runs at module import, before any connection code. -/
def loadSettings (env : RawEnv) : Option Settings :=
  env.clickhouse_base_url.bind fun url =>
  env.clickhouse_batch_size.bind fun bsRaw =>
  env.clickhouse_compression_protocol.bind fun cp =>
  env.clickhouse_password.bind fun pw =>
  env.clickhouse_port.bind fun portRaw =>
  env.clickhouse_user.bind fun user =>
  (parseIntStr bsRaw).bind fun bs =>
  (parseIntStr portRaw).map fun port =>
  ⟨url, bs, cp, pw, port, user⟩

/-- Application start-up: `settings = Settings()` runs at import of
`settings.py`; only if it succeeds does `run` open a connection (built
from the settings by `connFor`, which stands for
`clickhouse_connect.get_client` applied to the loaded values).  `none`
means the validation error aborted start-up with no connection attempt. -/
def app_start {ε ρ : Type} (env : RawEnv)
    (connFor : Settings → Except ε (ClientM ε ρ)) :
    Option (Except ε (List ρ × List ρ) × Trace ε) :=
  match loadSettings env with
  | none => none
  | some s => some (run (connFor s))

theorem unescapeQuotes_cons (c : Char) (s : List Char) (h : c ≠ '\\') :
    unescapeQuotes (c :: s) = c :: unescapeQuotes s := by
  cases s with
  | nil => rfl
  | cons b t => simp [unescapeQuotes, h]

theorem unescapeQuotes_esc (s r : List Char) (hbs : '\\' ∉ s) (hnl : '\n' ∉ s) :
    unescapeQuotes (tsvEscape s ++ r) = s ++ unescapeQuotes r := by
  induction s with
  | nil => simp [tsvEscape]
  | cons c s ih =>
    rw [List.mem_cons, not_or] at hbs hnl
    by_cases hq : c = '\''
    · subst hq
      show unescapeQuotes ('\\' :: '\'' :: (tsvEscape s ++ r)) = _
      simp [tsvEscape, unescapeQuotes, ih hbs.2 hnl.2]
    · have hbc : c ≠ '\\' := fun h => hbs.1 h.symm
      have hnc : c ≠ '\n' := fun h => hnl.1 h.symm
      show unescapeQuotes (tsvEscape (c :: s) ++ r) = _
      rw [tsvEscape, if_neg hq, if_neg hbc, if_neg hnc]
      simp only [List.singleton_append, List.cons_append, List.nil_append]
      rw [unescapeQuotes_cons c _ hbc, ih hbs.2 hnl.2]

theorem unescapeQuotes_joinNl (ss : List (List Char))
    (h : ∀ s ∈ ss, '\\' ∉ s ∧ '\n' ∉ s) :
    unescapeQuotes (joinNl (ss.map tsvEscape)) = joinNl ss := by
  induction ss with
  | nil => rfl
  | cons s rest ih =>
    have hs := h s (List.mem_cons_self ..)
    cases rest with
    | nil =>
      show unescapeQuotes (joinNl [tsvEscape s]) = joinNl [s]
      have := unescapeQuotes_esc s [] hs.1 hs.2
      simpa [joinNl, unescapeQuotes] using this
    | cons r t =>
      show unescapeQuotes (joinNl (tsvEscape s :: tsvEscape r :: t.map tsvEscape))
          = joinNl (s :: r :: t)
      rw [joinNl, unescapeQuotes_esc s _ hs.1 hs.2,
        unescapeQuotes_cons _ _ (by decide)]
      have : unescapeQuotes (joinNl ((r :: t).map tsvEscape)) = joinNl (r :: t) :=
        ih fun x hx => h x (List.mem_cons_of_mem _ hx)
      simp only [List.map_cons] at this
      rw [this, joinNl]

theorem removeNewlines_append (a b : List Char) :
    removeNewlines (a ++ b) = removeNewlines a ++ removeNewlines b := by
  induction a with
  | nil => rfl
  | cons c s ih =>
    by_cases hc : c = '\n' <;> simp [removeNewlines, hc, ih]

theorem removeNewlines_of_not_mem (s : List Char) (h : '\n' ∉ s) :
    removeNewlines s = s := by
  induction s with
  | nil => rfl
  | cons c t ih =>
    rw [List.mem_cons, not_or] at h
    have : c ≠ '\n' := fun hc => h.1 hc.symm
    simp [removeNewlines, this, ih h.2]

theorem removeNewlines_joinNl (ss : List (List Char))
    (h : ∀ s ∈ ss, '\n' ∉ s) :
    removeNewlines (joinNl ss) = ss.flatten := by
  induction ss with
  | nil => rfl
  | cons s rest ih =>
    have hs := h s (List.mem_cons_self ..)
    cases rest with
    | nil => simpa [joinNl] using removeNewlines_of_not_mem s hs
    | cons r t =>
      rw [joinNl, removeNewlines_append, removeNewlines_of_not_mem s hs]
      have hcons : removeNewlines ('\n' :: joinNl (r :: t))
          = removeNewlines (joinNl (r :: t)) := by simp [removeNewlines]
      rw [hcons, ih fun x hx => h x (List.mem_cons_of_mem _ hx)]
      simp [List.flatten_cons]

theorem splitOnChar_ne_nil (c : Char) (s : List Char) : splitOnChar c s ≠ [] := by
  induction s with
  | nil => simp [splitOnChar]
  | cons x s ih =>
    cases h : splitOnChar c s with
    | nil => exact absurd h ih
    | cons seg segs =>
      simp only [splitOnChar, h]
      by_cases hx : x = c <;> simp [hx]

theorem splitOnChar_append_cons (c : Char) (b J : List Char) (hb : c ∉ b) :
    splitOnChar c (b ++ c :: J) = b :: splitOnChar c J := by
  induction b with
  | nil =>
    simp only [List.nil_append]
    cases h : splitOnChar c J with
    | nil => exact absurd h (splitOnChar_ne_nil c J)
    | cons seg segs => simp [splitOnChar, h]
  | cons x b ih =>
    rw [List.mem_cons, not_or] at hb
    have hxc : x ≠ c := fun h => hb.1 h.symm
    simp only [List.cons_append, splitOnChar, List.append_eq]
    rw [ih hb.2]
    simp [hxc]

theorem splitOnChar_bodies (bodies : List (List Char))
    (h : ∀ b ∈ bodies, ';' ∉ b) :
    splitOnChar ';' ((bodies.map fun b => b ++ [';']).flatten) = bodies ++ [[]] := by
  induction bodies with
  | nil => simp [splitOnChar]
  | cons b bs ih =>
    have hjoin : ((b :: bs).map fun x => x ++ [';']).flatten
        = b ++ ';' :: ((bs.map fun x => x ++ [';']).flatten) := by
      simp [List.flatten_cons]
    rw [hjoin, splitOnChar_append_cons _ _ _ (h b (List.mem_cons_self ..)),
      ih fun x hx => h x (List.mem_cons_of_mem _ hx)]
    rfl

theorem postprocess_gen (bodies : List (List Char))
    (h : ∀ b ∈ bodies, cleanChars b) :
    postprocess (joinNl (bodies.map fun b => tsvEscape (b ++ [';'])))
      = bodies ++ [[]] := by
  have hmap : (bodies.map fun b => tsvEscape (b ++ [';']))
      = ((bodies.map fun b => b ++ [';']).map tsvEscape) := by
    rw [List.map_map]; rfl
  have hbsnl : ∀ s ∈ bodies.map fun b => b ++ [';'], '\\' ∉ s ∧ '\n' ∉ s := by
    intro s hs
    obtain ⟨b, hb, rfl⟩ := List.mem_map.1 hs
    obtain ⟨_, h2, h3⟩ := h b hb
    refine ⟨?_, ?_⟩
    · simp only [List.mem_append, not_or]
      exact ⟨h3, by decide⟩
    · simp only [List.mem_append, not_or]
      exact ⟨h2, by decide⟩
  unfold postprocess
  rw [hmap, unescapeQuotes_joinNl _ hbsnl,
    removeNewlines_joinNl _ fun s hs => (hbsnl s hs).2,
    splitOnChar_bodies _ fun b hb => (h b hb).1]

theorem mem_userTables {t : List Char} {catalog : List (List Char)}
    (h : t ∈ userTables catalog) : t ∈ catalog := by
  unfold userTables at h
  rw [List.mem_dedup] at h
  exact (List.mem_filter.1 h).1

theorem cleanChars_logicalBody (t : List Char) (h : cleanChars t) :
    cleanChars (logicalBody t) := by
  obtain ⟨h1, h2, h3⟩ := h
  have a1 : ';' ∉ lgA := by decide
  have a2 : '\n' ∉ lgA := by decide
  have a3 : '\\' ∉ lgA := by decide
  have b1 : ';' ∉ lgB := by decide
  have b2 : '\n' ∉ lgB := by decide
  have b3 : '\\' ∉ lgB := by decide
  refine ⟨?_, ?_, ?_⟩
  · simp only [logicalBody, List.mem_append, not_or]
    exact ⟨⟨⟨a1, h1⟩, b1⟩, h1⟩
  · simp only [logicalBody, List.mem_append, not_or]
    exact ⟨⟨⟨a2, h2⟩, b2⟩, h2⟩
  · simp only [logicalBody, List.mem_append, not_or]
    exact ⟨⟨⟨a3, h3⟩, b3⟩, h3⟩

theorem cleanChars_physicalBody (t : List Char) (h : cleanChars t) :
    cleanChars (physicalBody t) := by
  obtain ⟨h1, h2, h3⟩ := h
  have a1 : ';' ∉ phA := by decide
  have a2 : '\n' ∉ phA := by decide
  have a3 : '\\' ∉ phA := by decide
  have b1 : ';' ∉ phB := by decide
  have b2 : '\n' ∉ phB := by decide
  have b3 : '\\' ∉ phB := by decide
  refine ⟨?_, ?_, ?_⟩
  · simp only [physicalBody, List.mem_append, not_or]
    exact ⟨⟨a1, h1⟩, b1⟩
  · simp only [physicalBody, List.mem_append, not_or]
    exact ⟨⟨a2, h2⟩, b2⟩
  · simp only [physicalBody, List.mem_append, not_or]
    exact ⟨⟨a3, h3⟩, b3⟩

theorem postprocess_logicalBlob (catalog : List (List Char))
    (hwf : ∀ t ∈ catalog, cleanChars t) :
    postprocess (logicalBlob catalog)
      = (userTables catalog).map logicalBody ++ [[]] := by
  unfold logicalBlob
  have hmap : ((userTables catalog).map fun t => tsvEscape (logicalBody t ++ [';']))
      = (((userTables catalog).map logicalBody).map fun b => tsvEscape (b ++ [';'])) := by
    rw [List.map_map]; rfl
  rw [hmap, postprocess_gen]
  intro b hb
  obtain ⟨t, ht, rfl⟩ := List.mem_map.1 hb
  exact cleanChars_logicalBody t (hwf t (mem_userTables ht))

theorem postprocess_physicalBlob (catalog : List (List Char))
    (hwf : ∀ t ∈ catalog, cleanChars t) :
    postprocess (physicalBlob catalog)
      = (userTables catalog).map physicalBody ++ [[]] := by
  unfold physicalBlob
  have hmap : ((userTables catalog).map fun t => tsvEscape (physicalBody t ++ [';']))
      = (((userTables catalog).map physicalBody).map fun b => tsvEscape (b ++ [';'])) := by
    rw [List.map_map]; rfl
  rw [hmap, postprocess_gen]
  intro b hb
  obtain ⟨t, ht, rfl⟩ := List.mem_map.1 hb
  exact cleanChars_physicalBody t (hwf t (mem_userTables ht))

theorem make_queries_db {ε ρ : Type} (catalog : List (List Char))
    (qf : List Char → Except ε (List ρ))
    (hwf : ∀ t ∈ catalog, cleanChars t) :
    make_queries (dbClient catalog qf)
      = (Except.ok ((userTables catalog).map logicalBody ++ [[]],
          (userTables catalog).map physicalBody ++ [[]]), [], 2) := by
  simp [make_queries, dbClient, postprocess_logicalBlob catalog hwf,
    postprocess_physicalBlob catalog hwf]

theorem userTables_eq_self (catalog : List (List Char)) (hnd : catalog.Nodup)
    (hmv : ∀ t ∈ catalog, endsWithMV t = false) :
    userTables catalog = catalog := by
  unfold userTables
  rw [List.filter_eq_self.mpr fun a ha => by simp [hmv a ha],
    List.dedup_eq_self.mpr hnd]

theorem mem_userTables_not_mv {t : List Char} {catalog : List (List Char)}
    (h : t ∈ userTables catalog) : endsWithMV t = false := by
  unfold userTables at h
  rw [List.mem_dedup] at h
  have := (List.mem_filter.1 h).2
  simpa using this

theorem executable_concat (l : List (List Char)) (x : List Char) :
    executable (l ++ [x]) = l := by
  unfold executable
  simp

theorem runQueries_ok {ε ρ : Type} (cl : ClientM ε ρ) (qs : List (List Char))
    (hok : ∀ q ∈ qs, ∃ rs, cl.query q = Except.ok rs) :
    ∃ rows, runQueries cl qs = (Except.ok rows, qs) := by
  induction qs with
  | nil => exact ⟨[], rfl⟩
  | cons q qs ih =>
    obtain ⟨rs, hrs⟩ := hok q (List.mem_cons_self ..)
    obtain ⟨rows, hrows⟩ := ih fun x hx => hok x (List.mem_cons_of_mem _ hx)
    exact ⟨rs ++ rows, by simp [runQueries, hrs, hrows]⟩

theorem runQueries_stub {ε ρ : Type} (cl : ClientM ε ρ) (st : List Char → ρ)
    (hq : ∀ q, cl.query q = Except.ok [st q]) (qs : List (List Char)) :
    runQueries cl qs = (Except.ok (qs.map st), qs) := by
  induction qs with
  | nil => rfl
  | cons q qs ih => simp [runQueries, hq q, ih]

theorem runQueries_fail {ε ρ : Type} (cl : ClientM ε ρ)
    (qs₁ qs₂ : List (List Char)) (q : List Char) (e : ε)
    (hok : ∀ q' ∈ qs₁, ∃ rs, cl.query q' = Except.ok rs)
    (hq : cl.query q = Except.error e) :
    runQueries cl (qs₁ ++ q :: qs₂) = (Except.error e, qs₁ ++ [q]) := by
  induction qs₁ with
  | nil => simp [runQueries, hq]
  | cons x xs ih =>
    obtain ⟨rs, hrs⟩ := hok x (List.mem_cons_self ..)
    have := ih fun y hy => hok y (List.mem_cons_of_mem _ hy)
    simp [runQueries, hrs, this]

theorem extract_ok {ε ρ : Type} (cl : ClientM ε ρ) (lq pq : List (List Char))
    (lrows prows : List ρ)
    (hl : runQueries cl (executable lq) = (Except.ok lrows, executable lq))
    (hp : runQueries cl (executable pq) = (Except.ok prows, executable pq)) :
    extract cl lq pq
      = (Except.ok (lrows, prows), executable lq ++ executable pq) := by
  simp [extract, hl, hp]

theorem run_ok {ε ρ : Type} (cl : ClientM ε ρ) (lq pq : List (List Char))
    (hmk : make_queries cl = (Except.ok (lq, pq), [], 2)) :
    run (Except.ok cl)
      = ((extract cl lq pq).1, ⟨[], 1, 2, (extract cl lq pq).2⟩) := by
  simp [run, create_clickhouse_client, hmk]

theorem dropWhile_append_all {p : Char → Bool} (l x : List Char)
    (h : ∀ c ∈ l, p c = true) :
    List.dropWhile p (l ++ x) = List.dropWhile p x := by
  induction l with
  | nil => rfl
  | cons c t ih =>
    have hc := h c (List.mem_cons_self ..)
    simp [List.dropWhile, hc, ih fun y hy => h y (List.mem_cons_of_mem _ hy)]

theorem takeWhile_append_all {p : Char → Bool} (l x : List Char)
    (h : ∀ c ∈ l, p c = true) :
    List.takeWhile p (l ++ x) = l ++ List.takeWhile p x := by
  induction l with
  | nil => rfl
  | cons c t ih =>
    have hc := h c (List.mem_cons_self ..)
    simp [List.takeWhile, hc, ih fun y hy => h y (List.mem_cons_of_mem _ hy)]

theorem parse_logicalBody (t : List Char) (h : '\'' ∉ t) :
    parseTableName (logicalBody t) = t := by
  have hsplit : logicalBody t = chars "SELECT " ++ ('\'' :: (t ++ (lgB ++ t))) := by
    unfold logicalBody
    rw [List.append_assoc, List.append_assoc]
    rfl
  unfold parseTableName
  rw [hsplit, dropWhile_append_all _ _ (by decide)]
  have hstop : List.dropWhile (fun c => decide (c ≠ '\'')) ('\'' :: (t ++ (lgB ++ t)))
      = '\'' :: (t ++ (lgB ++ t)) := by
    simp [List.dropWhile]
  rw [hstop]
  simp only [List.drop_succ_cons, List.drop_zero]
  rw [takeWhile_append_all _ _ (fun c hc => by
    simp only [decide_eq_true_eq]
    exact fun hq => h (hq ▸ hc))]
  have : List.takeWhile (fun c => decide (c ≠ '\'')) (lgB ++ t) = [] := rfl
  rw [this, List.append_nil]

theorem parse_physicalBody (t : List Char) (h : '\'' ∉ t) :
    parseTableName (physicalBody t) = t := by
  have hsplit : physicalBody t = chars "SELECT " ++ ('\'' :: (t ++ phB)) := by
    unfold physicalBody
    rw [List.append_assoc]
    rfl
  unfold parseTableName
  rw [hsplit, dropWhile_append_all _ _ (by decide)]
  have hstop : List.dropWhile (fun c => decide (c ≠ '\'')) ('\'' :: (t ++ phB))
      = '\'' :: (t ++ phB) := by
    simp [List.dropWhile]
  rw [hstop]
  simp only [List.drop_succ_cons, List.drop_zero]
  rw [takeWhile_append_all _ _ (fun c hc => by
    simp only [decide_eq_true_eq]
    exact fun hq => h (hq ▸ hc))]
  have : List.takeWhile (fun c => decide (c ≠ '\'')) phB = [] := rfl
  rw [this, List.append_nil]

theorem logicalBody_inj {s t : List Char} (h : logicalBody s = logicalBody t) :
    s = t := by
  have hlen : s.length = t.length := by
    have := congrArg List.length h
    simp only [logicalBody, List.length_append] at this
    omega
  unfold logicalBody at h
  refine (List.append_inj h ?_).2
  simp only [List.length_append]
  omega

theorem physicalBody_inj {s t : List Char}
    (h : physicalBody s = physicalBody t) : s = t := by
  have hlen : s.length = t.length := by
    have := congrArg List.length h
    simp only [physicalBody, List.length_append] at this
    omega
  unfold physicalBody at h
  have h2 := List.append_cancel_right h
  exact (List.append_inj h2 rfl).2

theorem logicalBody_ne_nil (t : List Char) : logicalBody t ≠ [] := by
  intro h
  have hlen := congrArg List.length h
  have hA : lgA.length = 8 := by decide
  simp only [logicalBody, List.length_append, List.length_nil] at hlen
  omega

theorem physicalBody_ne_nil (t : List Char) : physicalBody t ≠ [] := by
  intro h
  have hlen := congrArg List.length h
  have hA : phA.length = 8 := by decide
  simp only [physicalBody, List.length_append, List.length_nil] at hlen
  omega

theorem runQueries_trace_subset {ε ρ : Type} (cl : ClientM ε ρ)
    (qs : List (List Char)) : ∀ q ∈ (runQueries cl qs).2, q ∈ qs := by
  induction qs with
  | nil => simp [runQueries]
  | cons q qs ih =>
    intro x hx
    cases hq : cl.query q with
    | error e =>
      simp only [runQueries, hq] at hx
      simp only [List.mem_singleton] at hx
      simp [hx]
    | ok rs =>
      cases hr : runQueries cl qs with
      | mk res tr =>
        have htr : ∀ y ∈ tr, y ∈ qs := fun y hy => ih y (by rw [hr]; exact hy)
        cases res with
        | error e =>
          simp only [runQueries, hq, hr] at hx
          rcases List.mem_cons.1 hx with rfl | hx
          · exact List.mem_cons_self ..
          · exact List.mem_cons_of_mem _ (htr x hx)
        | ok rest =>
          simp only [runQueries, hq, hr] at hx
          rcases List.mem_cons.1 hx with rfl | hx
          · exact List.mem_cons_self ..
          · exact List.mem_cons_of_mem _ (htr x hx)

theorem extract_trace_subset {ε ρ : Type} (cl : ClientM ε ρ)
    (lq pq : List (List Char)) :
    ∀ q ∈ (extract cl lq pq).2, q ∈ executable lq ∨ q ∈ executable pq := by
  intro q hq
  unfold extract at hq
  cases hl : runQueries cl (executable lq) with
  | mk lres ltr =>
    have hltr : ∀ y ∈ ltr, y ∈ executable lq := fun y hy =>
      runQueries_trace_subset cl (executable lq) y (by rw [hl]; exact hy)
    rw [hl] at hq
    cases lres with
    | error e => exact Or.inl (hltr q hq)
    | ok l =>
      cases hp : runQueries cl (executable pq) with
      | mk pres ptr =>
        have hptr : ∀ y ∈ ptr, y ∈ executable pq := fun y hy =>
          runQueries_trace_subset cl (executable pq) y (by rw [hp]; exact hy)
        rw [hp] at hq
        cases pres with
        | error e =>
          rcases List.mem_append.1 hq with h | h
          · exact Or.inl (hltr q h)
          · exact Or.inr (hptr q h)
        | ok p =>
          rcases List.mem_append.1 hq with h | h
          · exact Or.inl (hltr q h)
          · exact Or.inr (hptr q h)

/-- C2: for every catalog over the `default` namespace, possibly with
MV-suffixed names (case-insensitive), `make_queries` yields exactly one
executable statement per non-suffixed table in the logical set and one in
the physical set, and no statement at all for any MV-suffixed table. -/
theorem make_queries_one_statement_per_table {ε ρ : Type}
    (catalog : List (List Char)) (qf : List Char → Except ε (List ρ))
    (hnd : catalog.Nodup) (hwf : ∀ t ∈ catalog, cleanChars t) :
    ∃ L P, (make_queries (dbClient catalog qf)).1 = Except.ok (L, P)
      ∧ executable L = (catalog.filter fun t => !endsWithMV t).map logicalBody
      ∧ executable P = (catalog.filter fun t => !endsWithMV t).map physicalBody
      ∧ ∀ t ∈ catalog, endsWithMV t = true →
          logicalBody t ∉ L ∧ physicalBody t ∉ P := by
  have hfu : userTables catalog = catalog.filter fun t => !endsWithMV t := by
    unfold userTables
    exact List.dedup_eq_self.mpr (hnd.filter _)
  refine ⟨(userTables catalog).map logicalBody ++ [[]],
    (userTables catalog).map physicalBody ++ [[]], ?_, ?_, ?_, ?_⟩
  · rw [make_queries_db catalog qf hwf]
  · rw [executable_concat, hfu]
  · rw [executable_concat, hfu]
  · intro t _ hmv
    constructor
    · intro hmem
      rcases List.mem_append.1 hmem with hm | hm
      · obtain ⟨s, hs, heq⟩ := List.mem_map.1 hm
        have hst : s = t := logicalBody_inj heq
        subst hst
        rw [mem_userTables_not_mv hs] at hmv
        exact Bool.false_ne_true hmv
      · rw [List.mem_singleton] at hm
        exact logicalBody_ne_nil t hm
    · intro hmem
      rcases List.mem_append.1 hmem with hm | hm
      · obtain ⟨s, hs, heq⟩ := List.mem_map.1 hm
        have hst : s = t := physicalBody_inj heq
        subst hst
        rw [mem_userTables_not_mv hs] at hmv
        exact Bool.false_ne_true hmv
      · rw [List.mem_singleton] at hm
        exact physicalBody_ne_nil t hm

/-- C2 witness: the two-table catalog {"a", "bMV"} — one statement for
"a" in each set, none for the suffixed "bMV". -/
theorem make_queries_one_statement_per_table_w :
    ∃ L P, (make_queries (dbClient (ε := Unit) (ρ := Unit)
        [chars "a", chars "bMV"] fun _ => Except.ok [])).1 = Except.ok (L, P)
      ∧ executable L
          = ([chars "a", chars "bMV"].filter fun t => !endsWithMV t).map logicalBody
      ∧ executable P
          = ([chars "a", chars "bMV"].filter fun t => !endsWithMV t).map physicalBody
      ∧ ∀ t ∈ [chars "a", chars "bMV"], endsWithMV t = true →
          logicalBody t ∉ L ∧ physicalBody t ∉ P :=
  make_queries_one_statement_per_table [chars "a", chars "bMV"] _
    (by decide) (by decide)

/-- C4 counterexample: for the one-table catalog {"a"}, the lists
`make_queries` returns still contain the trailing empty string produced by
the terminal `';'` — the generator does not discard it. -/
theorem generator_keeps_trailing_empty_cex :
    (make_queries (dbClient (ε := Unit) (ρ := Unit) [chars "a"]
        fun _ => Except.ok [])).1
      = Except.ok ([logicalBody (chars "a"), []],
          [physicalBody (chars "a"), []]) := by
  rw [make_queries_db _ _ (by decide),
    userTables_eq_self _ (by decide) (by decide)]
  rfl

/-- C4 corrected: `make_queries` returns, per set, one non-empty statement
per eligible table followed by one trailing empty string; it is the
executor's slice `[:-1]` that excludes the trailing empty element, leaving
exactly one non-empty entry per table. -/
theorem trailing_empty_dropped_by_executor {ε ρ : Type}
    (catalog : List (List Char)) (qf : List Char → Except ε (List ρ))
    (hwf : ∀ t ∈ catalog, cleanChars t) :
    ∃ L P, (make_queries (dbClient catalog qf)).1 = Except.ok (L, P)
      ∧ L = (userTables catalog).map logicalBody ++ [[]]
      ∧ P = (userTables catalog).map physicalBody ++ [[]]
      ∧ executable L = (userTables catalog).map logicalBody
      ∧ executable P = (userTables catalog).map physicalBody
      ∧ ([] : List Char) ∉ executable L ∧ ([] : List Char) ∉ executable P := by
  refine ⟨(userTables catalog).map logicalBody ++ [[]],
    (userTables catalog).map physicalBody ++ [[]], ?_, rfl, rfl, ?_, ?_, ?_, ?_⟩
  · rw [make_queries_db catalog qf hwf]
  · exact executable_concat _ _
  · exact executable_concat _ _
  · rw [executable_concat]
    intro hm
    obtain ⟨t, _, heq⟩ := List.mem_map.1 hm
    exact logicalBody_ne_nil t heq
  · rw [executable_concat]
    intro hm
    obtain ⟨t, _, heq⟩ := List.mem_map.1 hm
    exact physicalBody_ne_nil t heq

/-- C4 amended-claim witness at the catalog {"a"}. -/
theorem trailing_empty_dropped_by_executor_w :
    ∃ L P, (make_queries (dbClient (ε := Unit) (ρ := Unit) [chars "a"]
        fun _ => Except.ok [])).1 = Except.ok (L, P)
      ∧ L = (userTables [chars "a"]).map logicalBody ++ [[]]
      ∧ P = (userTables [chars "a"]).map physicalBody ++ [[]]
      ∧ executable L = (userTables [chars "a"]).map logicalBody
      ∧ executable P = (userTables [chars "a"]).map physicalBody
      ∧ ([] : List Char) ∉ executable L ∧ ([] : List Char) ∉ executable P :=
  trailing_empty_dropped_by_executor [chars "a"] _ (by decide)

/-- C5: post-processing over N eligible tables yields exactly N+1
segments per set, the last segment is empty, and the executor never
executes that trailing segment (for any client behaviour). -/
theorem split_trailing_segment_not_executed {ε ρ : Type}
    (catalog : List (List Char)) (qf : List Char → Except ε (List ρ))
    (hwf : ∀ t ∈ catalog, cleanChars t) :
    ∃ L P, (make_queries (dbClient catalog qf)).1 = Except.ok (L, P)
      ∧ L.length = (userTables catalog).length + 1
      ∧ P.length = (userTables catalog).length + 1
      ∧ L.getLast? = some []
      ∧ P.getLast? = some []
      ∧ ∀ (ε' ρ' : Type) (cl : ClientM ε' ρ'),
          ([] : List Char) ∉ (extract cl L P).2 := by
  refine ⟨(userTables catalog).map logicalBody ++ [[]],
    (userTables catalog).map physicalBody ++ [[]], ?_, ?_, ?_, ?_, ?_, ?_⟩
  · rw [make_queries_db catalog qf hwf]
  · simp
  · simp
  · exact List.getLast?_concat _
  · exact List.getLast?_concat _
  · intro ε' ρ' cl hmem
    rcases extract_trace_subset cl _ _ _ hmem with h | h
    · rw [executable_concat] at h
      obtain ⟨t, _, heq⟩ := List.mem_map.1 h
      exact logicalBody_ne_nil t heq
    · rw [executable_concat] at h
      obtain ⟨t, _, heq⟩ := List.mem_map.1 h
      exact physicalBody_ne_nil t heq

/-- C5 witness at the catalog {"a"}: 2 segments per set, trailing empty,
never executed. -/
theorem split_trailing_segment_not_executed_w :
    ∃ L P, (make_queries (dbClient (ε := Unit) (ρ := Unit) [chars "a"]
        fun _ => Except.ok [])).1 = Except.ok (L, P)
      ∧ L.length = (userTables [chars "a"]).length + 1
      ∧ P.length = (userTables [chars "a"]).length + 1
      ∧ L.getLast? = some []
      ∧ P.getLast? = some []
      ∧ ∀ (ε' ρ' : Type) (cl : ClientM ε' ρ'),
          ([] : List Char) ∉ (extract cl L P).2 :=
  split_trailing_segment_not_executed [chars "a"] _ (by decide)

/-- C7: when the connection fails, the run shows the connect banner,
propagates the error, and issues no introspection command and no query:
there is exactly one connection attempt, no retry, no fallback. -/
theorem connection_failure_blocks_pipeline {ε ρ : Type} (e : ε) :
    run (ρ := ρ) (Except.error e)
      = (Except.error e,
         { banners := [Msg.connectFailed e], connects := 1, commands := 0,
           executed := [] }) := rfl

/-- C7 witness at a concrete error value. -/
theorem connection_failure_blocks_pipeline_w :
    run (ρ := Unit) (Except.error 3)
      = (Except.error 3,
         { banners := [Msg.connectFailed 3], connects := 1, commands := 0,
           executed := [] }) :=
  connection_failure_blocks_pipeline 3

/-- C9: `extract` executes exactly the first `max(length - 1, 0)` entries
of each list, in order (its trace is `lq[:-1] ++ pq[:-1]`); on two empty
lists it executes nothing and returns two empty accumulators without
error; on a single-element list it silently executes nothing from it. -/
theorem extract_executes_all_but_last {ε ρ : Type} (cl : ClientM ε ρ)
    (lq pq : List (List Char))
    (hok : ∀ q, ∃ rs, cl.query q = Except.ok rs) :
    (extract cl lq pq).2 = lq.take (lq.length - 1) ++ pq.take (pq.length - 1)
    ∧ extract cl [] [] = (Except.ok ([], []), [])
    ∧ ∀ q : List Char, (extract cl [q] pq).2 = pq.take (pq.length - 1) := by
  obtain ⟨lrows, hl⟩ := runQueries_ok cl (executable lq) fun q _ => hok q
  obtain ⟨prows, hp⟩ := runQueries_ok cl (executable pq) fun q _ => hok q
  refine ⟨?_, rfl, ?_⟩
  · rw [extract_ok cl lq pq lrows prows hl hp]
    rfl
  · intro q
    rw [extract_ok cl [q] pq [] prows rfl hp]
    rfl

/-- C9 witness: an always-succeeding client on `["x", "y"]` and `[]`. -/
theorem extract_executes_all_but_last_w :
    (extract (⟨Except.ok [], Except.ok [], fun _ => Except.ok []⟩ :
          ClientM Unit Unit) [chars "x", chars "y"] []).2
      = [chars "x", chars "y"].take ([chars "x", chars "y"].length - 1)
        ++ ([] : List (List Char)).take (([] : List (List Char)).length - 1) :=
  (extract_executes_all_but_last _ [chars "x", chars "y"] []
    fun _ => ⟨[], rfl⟩).1

set_option maxRecDepth 4096 in
/-- C10: every executable physical statement is the fixed template
`phA ++ t ++ phB` around its table name `t`; the part after the name is
the constant `phB`, which ends in `FROM system.parts` — so the FROM
clause (and the absence of a WHERE clause) is identical for all tables
and independent of the table name. -/
theorem physical_statements_uniform {ε ρ : Type}
    (catalog : List (List Char)) (qf : List Char → Except ε (List ρ))
    (hwf : ∀ t ∈ catalog, cleanChars t) :
    ∃ L P, (make_queries (dbClient catalog qf)).1 = Except.ok (L, P)
      ∧ (∀ q ∈ executable P, ∃ t ∈ userTables catalog, q = phA ++ t ++ phB)
      ∧ ∃ u, phB = u ++ chars "FROM system.parts" := by
  refine ⟨(userTables catalog).map logicalBody ++ [[]],
    (userTables catalog).map physicalBody ++ [[]], ?_, ?_, ?_⟩
  · rw [make_queries_db catalog qf hwf]
  · rw [executable_concat]
    intro q hq
    obtain ⟨t, ht, heq⟩ := List.mem_map.1 hq
    exact ⟨t, ht, heq.symm⟩
  · exact ⟨chars "' AS Table, formatReadableSize(SUM(data_compressed_bytes)) AS `Compressed Size`, formatReadableSize(SUM(data_uncompressed_bytes)) AS `Uncompressed Size`, (SUM(data_compressed_bytes) / SUM(data_uncompressed_bytes)) AS `Ratio`, ((1 - (SUM(data_compressed_bytes) / SUM(data_uncompressed_bytes))) * 100) AS `Physical Compression`", rfl⟩

/-- C10 witness at the catalog {"a"}. -/
theorem physical_statements_uniform_w :
    ∃ L P, (make_queries (dbClient (ε := Unit) (ρ := Unit) [chars "a"]
        fun _ => Except.ok [])).1 = Except.ok (L, P)
      ∧ (∀ q ∈ executable P, ∃ t ∈ userTables [chars "a"], q = phA ++ t ++ phB)
      ∧ ∃ u, phB = u ++ chars "FROM system.parts" :=
  physical_statements_uniform [chars "a"] _ (by decide)

/-- C1: for a catalog of N distinct eligible (non-MV-suffixed) tables and
a stub client returning exactly one row per executed statement, whose
`Table` cell carries the name embedded in that statement, the pipeline
(`make_queries`, `extract`, `transform`) yields report tables with
exactly N rows each, whose `Table` columns are exactly the catalog's
table names. -/
theorem pipeline_roundtrip {ε : Type} (catalog : List (List Char))
    (st : List Char → Row)
    (hnd : catalog.Nodup)
    (hwf : ∀ t ∈ catalog, cleanChars t)
    (hmv : ∀ t ∈ catalog, endsWithMV t = false)
    (hst : ∀ t ∈ catalog, (st (logicalBody t)).table = t
        ∧ (st (physicalBody t)).table = t) :
    ∃ lrows prows,
      (run (Except.ok (dbClient (ε := ε) catalog
          fun q => Except.ok [st q]))).1 = Except.ok (lrows, prows)
      ∧ (transform lrows prows).1.rows.length = catalog.length
      ∧ (transform lrows prows).2.rows.length = catalog.length
      ∧ tableColumn (transform lrows prows).1 = catalog
      ∧ tableColumn (transform lrows prows).2 = catalog := by
  have huts := userTables_eq_self catalog hnd hmv
  have hmk := make_queries_db (ε := ε) catalog
    (fun q => Except.ok [st q]) hwf
  rw [huts] at hmk
  have hq : ∀ q, (dbClient (ε := ε) catalog
      fun q => Except.ok [st q]).query q = Except.ok [st q] := fun _ => rfl
  have hl := runQueries_stub _ st hq (catalog.map logicalBody)
  have hp := runQueries_stub _ st hq (catalog.map physicalBody)
  have hex := extract_ok (dbClient (ε := ε) catalog fun q => Except.ok [st q])
    (catalog.map logicalBody ++ [[]]) (catalog.map physicalBody ++ [[]])
    ((catalog.map logicalBody).map st) ((catalog.map physicalBody).map st)
    (by rw [executable_concat]; exact hl)
    (by rw [executable_concat]; exact hp)
  refine ⟨(catalog.map logicalBody).map st, (catalog.map physicalBody).map st,
    ?_, ?_, ?_, ?_, ?_⟩
  · rw [run_ok _ _ _ hmk, hex]
  · simp [transform]
  · simp [transform]
  · show ((catalog.map logicalBody).map st).map Row.table = catalog
    simp only [List.map_map]
    have : ∀ t ∈ catalog, (Row.table ∘ st ∘ logicalBody) t = id t :=
      fun t ht => (hst t ht).1
    rw [List.map_congr_left this, List.map_id]
  · show ((catalog.map physicalBody).map st).map Row.table = catalog
    simp only [List.map_map]
    have : ∀ t ∈ catalog, (Row.table ∘ st ∘ physicalBody) t = id t :=
      fun t ht => (hst t ht).2
    rw [List.map_congr_left this, List.map_id]

/-- C1 witness: the 3-table catalog {"a","b","c"} with the stub that
reads the table name back out of each statement — 3 rows per report,
`Table` columns equal to ["a","b","c"]. -/
theorem pipeline_roundtrip_w :
    ∃ lrows prows,
      (run (Except.ok (dbClient (ε := Unit) [chars "a", chars "b", chars "c"]
          fun q => Except.ok [⟨parseTableName q, []⟩]))).1
        = Except.ok (lrows, prows)
      ∧ (transform lrows prows).1.rows.length
          = [chars "a", chars "b", chars "c"].length
      ∧ (transform lrows prows).2.rows.length
          = [chars "a", chars "b", chars "c"].length
      ∧ tableColumn (transform lrows prows).1 = [chars "a", chars "b", chars "c"]
      ∧ tableColumn (transform lrows prows).2
          = [chars "a", chars "b", chars "c"] :=
  pipeline_roundtrip [chars "a", chars "b", chars "c"]
    (fun q => ⟨parseTableName q, []⟩) (by decide) (by decide) (by decide)
    (by
      intro t ht
      have hq : '\'' ∉ t := by
        simp only [List.mem_cons, List.not_mem_nil, or_false] at ht
        rcases ht with rfl | rfl | rfl <;> decide
      exact ⟨parse_logicalBody t hq, parse_physicalBody t hq⟩)

/-- C3 counterexample: a working connection and generator but a client
whose `query` raises — the run aborts with the raised error, yet the
banner list is empty: the executor stage attaches no user-facing message
(there is no try/except in `extract`). -/
theorem executor_attaches_no_banner_cex :
    run (Except.ok (⟨Except.ok (chars "q;"), Except.ok (chars "p;"),
        fun _ => Except.error ()⟩ : ClientM Unit Unit))
      = (Except.error (),
         { banners := [], connects := 1, commands := 2,
           executed := [chars "q"] }) := rfl

/-- C3 corrected: the connection factory and the query generator each
catch a failure only to attach one user-facing message and re-raise it;
the executor does not catch at all — a failing statement aborts the
extraction at once (each earlier statement executed exactly once, the
failing one once, nothing after it, and nothing from the physical list if
the logical loop failed), the error propagates unchanged, no partial
result is returned, and no banner is ever attached by the executor. -/
theorem error_propagation (ε ρ : Type) :
    (∀ e : ε, create_clickhouse_client (ρ := ρ) (Except.error e)
        = (Except.error e, [Msg.connectFailed e]))
    ∧ (∀ (e : ε) (cl : ClientM ε ρ), cl.commandLogical = Except.error e →
        make_queries cl = (Except.error e, [Msg.generateFailed e], 1))
    ∧ (∀ (e : ε) (cl : ClientM ε ρ) (lb : List Char),
        cl.commandLogical = Except.ok lb →
        cl.commandPhysical = Except.error e →
        make_queries cl = (Except.error e, [Msg.generateFailed e], 2))
    ∧ (∀ (cl : ClientM ε ρ) (qs₁ qs₂ : List (List Char)) (q : List Char)
        (e : ε), (∀ q' ∈ qs₁, ∃ rs, cl.query q' = Except.ok rs) →
        cl.query q = Except.error e →
        runQueries cl (qs₁ ++ q :: qs₂) = (Except.error e, qs₁ ++ [q]))
    ∧ (∀ (cl : ClientM ε ρ) (lq pq : List (List Char)) (e : ε),
        (runQueries cl (executable lq)).1 = Except.error e →
        extract cl lq pq
          = (Except.error e, (runQueries cl (executable lq)).2))
    ∧ (∀ (cl : ClientM ε ρ) (lb pb : List Char),
        cl.commandLogical = Except.ok lb →
        cl.commandPhysical = Except.ok pb →
        (run (Except.ok cl)).2.banners = []) := by
  refine ⟨fun e => rfl, ?_, ?_, ?_, ?_, ?_⟩
  · intro e cl h
    simp [make_queries, h]
  · intro e cl lb h1 h2
    simp [make_queries, h1, h2]
  · exact fun cl qs₁ qs₂ q e hok hq => runQueries_fail cl qs₁ qs₂ q e hok hq
  · intro cl lq pq e herr
    unfold extract
    cases hl : runQueries cl (executable lq) with
    | mk lres ltr =>
      rw [hl] at herr
      cases lres with
      | error e2 =>
        cases herr
        rfl
      | ok l => exact absurd herr (by simp)
  · intro cl lb pb h1 h2
    simp only [run, create_clickhouse_client, make_queries, h1, h2]
    cases extract cl (postprocess lb) (postprocess pb) with
    | mk res tr => rfl

/-- C3 amended-claim witness: the generator's catch at a concrete failing
logical command. -/
theorem error_propagation_w :
    make_queries (⟨Except.error (), Except.error (), fun _ => Except.ok []⟩ :
        ClientM Unit Unit)
      = (Except.error (), [Msg.generateFailed ()], 1) :=
  (error_propagation Unit Unit).2.1 ()
    ⟨Except.error (), Except.error (), fun _ => Except.ok []⟩ rfl

/-- C6 counterexample: selecting all table names present in the logical
dataset does not leave the physical dataset unchanged when the physical
dataset holds a table name ("b") absent from the logical one ("a") — its
row is filtered away. -/
theorem presentation_filter_cex :
    filterTables ⟨[⟨chars "b", []⟩]⟩ (uniqueTables ⟨[⟨chars "a", []⟩]⟩)
      ≠ ⟨[⟨chars "b", []⟩]⟩ := by decide

/-- C6 corrected: the filter is the same inclusion filter on the `Table`
column for both datasets; selecting every table name present in the
logical dataset leaves the logical dataset unchanged, and leaves the
physical dataset unchanged provided each of its rows' table names occurs
in the logical dataset (as holds for the pipeline's outputs); the empty
selection yields zero rows in both. -/
theorem presentation_filter_props (df1 df2 : DataFrame) :
    filterTables df1 (uniqueTables df1) = df1
    ∧ ((∀ r ∈ df2.rows, r.table ∈ df1.rows.map Row.table) →
        filterTables df2 (uniqueTables df1) = df2)
    ∧ filterTables df1 [] = ⟨[]⟩
    ∧ filterTables df2 [] = ⟨[]⟩ := by
  refine ⟨?_, ?_, ?_, ?_⟩
  · cases df1 with
    | mk rows =>
      unfold filterTables uniqueTables
      congr 1
      refine List.filter_eq_self.mpr fun r hr => ?_
      simp only [decide_eq_true_eq]
      exact List.mem_dedup.mpr (List.mem_map_of_mem _ hr)
  · intro h
    cases df2 with
    | mk rows =>
      unfold filterTables uniqueTables
      congr 1
      refine List.filter_eq_self.mpr fun r hr => ?_
      simp only [decide_eq_true_eq]
      exact List.mem_dedup.mpr (h r hr)
  · unfold filterTables
    congr 1
    simp
  · unfold filterTables
    congr 1
    simp

/-- C6 amended-claim witness at concrete one-row datasets sharing the
table name "a". -/
theorem presentation_filter_props_w :
    filterTables ⟨[⟨chars "a", []⟩]⟩ (uniqueTables ⟨[⟨chars "a", []⟩]⟩)
        = ⟨[⟨chars "a", []⟩]⟩
    ∧ filterTables ⟨[⟨chars "a", [chars "z"]⟩]⟩
        (uniqueTables ⟨[⟨chars "a", []⟩]⟩) = ⟨[⟨chars "a", [chars "z"]⟩]⟩ :=
  ⟨(presentation_filter_props ⟨[⟨chars "a", []⟩]⟩
      ⟨[⟨chars "a", [chars "z"]⟩]⟩).1,
   (presentation_filter_props ⟨[⟨chars "a", []⟩]⟩
      ⟨[⟨chars "a", [chars "z"]⟩]⟩).2.1 (by decide)⟩

/-- C8: an environment missing any of the six required fields, or holding
an unparseable value for either integer field, fails settings validation,
and start-up then ends before any connection attempt: the run result is
`none` for every possible connection factory, so no network call is
reached. -/
theorem settings_validation_fails_first (env : RawEnv)
    (h : env.clickhouse_base_url = none ∨ env.clickhouse_batch_size = none
       ∨ env.clickhouse_compression_protocol = none
       ∨ env.clickhouse_password = none ∨ env.clickhouse_port = none
       ∨ env.clickhouse_user = none
       ∨ (∃ s, env.clickhouse_batch_size = some s ∧ parseIntStr s = none)
       ∨ (∃ s, env.clickhouse_port = some s ∧ parseIntStr s = none)) :
    loadSettings env = none
    ∧ ∀ (ε ρ : Type) (connFor : Settings → Except ε (ClientM ε ρ)),
        app_start env connFor = none := by
  have hnone : loadSettings env = none := by
    cases hls : loadSettings env with
    | none => rfl
    | some s =>
      exfalso
      unfold loadSettings at hls
      simp only [Option.bind_eq_some, Option.map_eq_some'] at hls
      obtain ⟨url, hurl, bsRaw, hbs, cp, hcp, pw, hpw, portRaw, hport,
        user, huser, bs, hbsv, port, hportv, -⟩ := hls
      rcases h with h | h | h | h | h | h | ⟨x, hx1, hx2⟩ | ⟨x, hx1, hx2⟩
      · exact Option.noConfusion (h ▸ hurl)
      · exact Option.noConfusion (h ▸ hbs)
      · exact Option.noConfusion (h ▸ hcp)
      · exact Option.noConfusion (h ▸ hpw)
      · exact Option.noConfusion (h ▸ hport)
      · exact Option.noConfusion (h ▸ huser)
      · rw [hx1] at hbs
        cases hbs
        rw [hx2] at hbsv
        exact Option.noConfusion hbsv
      · rw [hx1] at hport
        cases hport
        rw [hx2] at hportv
        exact Option.noConfusion hportv
  exact ⟨hnone, fun ε ρ connFor => by simp [app_start, hnone]⟩

/-- C8 witness: all fields present except the password — validation fails
and no connection is attempted for any factory. -/
theorem settings_validation_fails_first_w :
    loadSettings ⟨some (chars "h"), some (chars "10"), some (chars "gz"),
        none, some (chars "8443"), some (chars "u")⟩ = none
    ∧ ∀ (ε ρ : Type) (connFor : Settings → Except ε (ClientM ε ρ)),
        app_start ⟨some (chars "h"), some (chars "10"), some (chars "gz"),
          none, some (chars "8443"), some (chars "u")⟩ connFor = none :=
  settings_validation_fails_first _
    (Or.inr (Or.inr (Or.inr (Or.inl rfl))))
